import Mathlib

/-!
Comparison circuit over F_q: verification development.

Shallow embedding of the drivers (`comparison_circuit.cpp`, `psm_circuit.cpp`),
of the parameter search (`findParameters.cpp`) and of the comparator
interface (`comparator.h`), followed by the theorems about them.

Machine integers: `unsigned long` is a `Nat` reduced modulo `2^64`,
`long` is an `Int` kept in `[-2^63, 2^63)` by `wrapLong`.
-/

namespace CmpCircuit

/-! ## Machine integers -/

/-- Number of values of a 64-bit `unsigned long`. -/
def ULONG : Nat := 2 ^ 64

/-- Reduction of an integer to `unsigned long` (conversion `long -> unsigned long`). -/
def toULong (z : Int) : Nat := (z % (2 ^ 64 : Int)).toNat

/-- Two's complement reading of an `unsigned long` as a `long`. -/
def toLong (u : Nat) : Int := if u < 2 ^ 63 then (u : Int) else (u : Int) - 2 ^ 64

/-- Result of a `long` operation, wrapped to 64 bits. -/
def wrapLong (z : Int) : Int := toLong (toULong z)

/-! ## Circuit types and the two drivers (argument checking) -/

/-- The enumeration `CircuitType` the drivers assign from. -/
inductive CircuitType
  | UNI | BI | TAN | PSM | PSMS
  deriving DecidableEq, Repr

/-- The external functions `adjustingParameters` calls. `findGenerators`
receives the current `gens`, `ords` vectors and returns the new ones. -/
structure AdjOracles where
  ProbPrime : Nat → Bool
  multOrd : Nat → Nat → Int
  findGenerators : List Int → List Int → Nat → Nat → List Int × List Int
  calculateSecurityLevel : Nat → Nat → Nat → Nat

/-- How the inner loop over `m` ends. -/
inductive InnerEnd
  | accept (m : Nat)
  | exhausted (m : Nat)
  | divByZero
  deriving DecidableEq, Repr

/-- The inner loop `for(uint i=0; i<100000; i++, m++)`; `n` counts the
iterations left. -/
def innerLoop (O : AdjOracles) (nb_primes d p : Nat) :
    Nat → Nat → List Int → List Int → InnerEnd
  | 0, m, _, _ => .exhausted m
  | n + 1, m, gens, ords =>
    let ordP := O.multOrd p m
    if p = 0 then .divByZero
    else if m % p ≠ 0 ∧ toULong ordP ≥ d ∧ ordP < 25 then
      let go := O.findGenerators gens ords m p
      if go.1.length < 16 ∧ O.calculateSecurityLevel p m nb_primes > 120 then .accept m
      else innerLoop O nb_primes d p n ((m + 1) % ULONG) go.1 go.2
    else innerLoop O nb_primes d p n ((m + 1) % ULONG) gens ords

/-- How the outer loop over `p` ends. -/
inductive OuterEnd
  | returned (p m : Nat)
  | fellThrough (p m : Nat)
  | crashed
  deriving DecidableEq, Repr

/-- The outer loop `for(uint i=0; i<100; i++, p++)`; `n` counts the iterations left. -/
def outerLoop (O : AdjOracles) (nb_primes d : Nat) : Nat → Nat → Nat → OuterEnd
  | 0, p, m => .fellThrough p m
  | n + 1, p, m =>
    if O.ProbPrime p then
      match innerLoop O nb_primes d p 100000 m [] [] with
      | .accept m1 => .returned p m1
      | .divByZero => .crashed
      | .exhausted m1 => outerLoop O nb_primes d n ((p + 1) % ULONG) m1
    else outerLoop O nb_primes d n ((p + 1) % ULONG) m

/-- Outcome of `adjustingParameters`: whether a candidate was accepted and the
values of the reference parameters `p`, `m` on return. -/
structure AdjResult where
  accepted : Bool
  p : Nat
  m : Nat
  deriving DecidableEq, Repr

/-- The function `adjustingParameters`; `none` is the division by zero of `m % p`. -/
def adjustingParameters (O : AdjOracles) (p m nb_primes d : Nat) (_ss_size : Int) :
    Option AdjResult :=
  let p_ := p
  let m_ := m
  match outerLoop O nb_primes d 100 p m with
  | .returned p1 m1 => some ⟨true, p1, m1⟩
  | .crashed => none
  | .fellThrough _ _ => some ⟨false, p_, m_⟩

/-! ## Key-switching matrices requested by `comparison_circuit.cpp` (lines 140-183) -/

/-- The queries on `context.getZMStar()` / `ea.getPAlgebra()` the driver makes. -/
structure ZMStar where
  numOfGens : Int
  OrderOf : Nat → Int
  SameOrd : Nat → Bool
  genToPow : Nat → Int → Int
  coordinate : Nat → Nat → Int
  getNSlots : Nat

/-- Requests the driver sends to the secret key, in program order. -/
inductive KSAction
  | GenKeySWmatrix (autom : Int)
  | setKeySwitchMap
  | addTheseMatrices (automVals : Finset Int)
  | addSome1DMatrices
  | addFrbMatrices
  deriving DecidableEq

/-- The loop `while (e < expansion_len) { ...; e <<= 1; }` with `long e`
compared as `unsigned long`; `none` when the fuel runs out. -/
def automLoop (Z : ZMStar) (ord : Int) (expansion_len : Nat) :
    Nat → Int → Finset Int → Option (Finset Int)
  | 0, _, _ => none
  | fuel + 1, e, automVals =>
    if toULong e < expansion_len then
      let atm := Z.genToPow 0 (wrapLong (ord - e))
      automLoop Z ord expansion_len fuel (wrapLong (e * 2)) (insert atm automVals)
    else some automVals

/-- The loop `for(uint r=1; r<maxsize; r <<= 1)` of the PSM branch for generator `g`. -/
def psmRLoop (Z : ZMStar) (g maxsize slots : Nat) :
    Nat → Nat → List KSAction → Option (List KSAction)
  | 0, _, _ => none
  | fuel + 1, r, acts =>
    if r < maxsize then
      let v := Z.coordinate g r
      let acts1 := if v ≠ 0 then acts ++ [.GenKeySWmatrix (Z.genToPow g v)] else acts
      let v2 := Z.coordinate g ((slots + ULONG - r) % ULONG)
      let acts2 := if v2 ≠ 0 then acts1 ++ [.GenKeySWmatrix (Z.genToPow g v2)] else acts1
      psmRLoop Z g maxsize slots fuel (r * 2 % 2 ^ 32) acts2
    else some acts

/-- The loop `for(uint g = 0; g < al.numOfGens(); g++)` of the PSM branch. -/
def psmGLoop (Z : ZMStar) (maxsize slots : Nat) (fuelR : Nat) :
    Nat → Nat → List KSAction → Option (List KSAction)
  | 0, _, _ => none
  | fuel + 1, g, acts =>
    if (g : Int) < Z.numOfGens then
      match psmRLoop Z g maxsize slots fuelR 1 acts with
      | none => none
      | some acts1 => psmGLoop Z maxsize slots fuelR fuel ((g + 1) % 2 ^ 32) acts1
    else some acts

/-- The section "Compute key-switching matrices that we need" of `main`:
the requests made before the Comparator is created; `none` when a loop does
not finish within `fuel` iterations. -/
def keySwitchSetup (fuel : Nat) (Z : ZMStar) (type : CircuitType)
    (p d expansion_len : Nat) : Option (List KSAction) :=
  if type = .PSM then
    let slots := Z.getNSlots
    let enc_base := ((p + ULONG - 1) % ULONG) / 2
    let maxsize := if enc_base > slots then slots else enc_base
    match psmGLoop Z maxsize slots fuel fuel 0 [] with
    | none => none
    | some acts => some (acts ++ [.setKeySwitchMap])
  else if expansion_len > 1 then
    let frb : List KSAction := if d > 1 then [.addFrbMatrices] else []
    if Z.numOfGens = 1 then
      let ord := Z.OrderOf 0
      let native := Z.SameOrd 0
      let automVals0 : Finset Int :=
        if ¬ native then insert (Z.genToPow 0 (wrapLong (-ord))) ∅ else ∅
      match automLoop Z ord expansion_len fuel 1 automVals0 with
      | none => none
      | some automVals => some (.addTheseMatrices automVals :: frb)
    else some (.addSome1DMatrices :: frb)
  else some []

/-- A concrete slot structure: `m = 13`, `p = 3`; the slots are indexed by the
powers of the single generator `2` of `(Z/13)^* / <3>`, of order 4. -/
def zm13 : ZMStar where
  numOfGens := 1
  OrderOf := fun _ => 4
  SameOrd := fun _ => false
  genToPow := fun _ j => (2 ^ (j % 12).toNat) % 13
  coordinate := fun _ r => ((r % 4 : Nat) : Int)
  getNSlots := 4

/-! ## `ctxtPrimeSize` (findParameters.cpp, lines 31-59) -/

section PrimeSize

variable {α : Type} [LinearOrderedField α] [FloorRing α]

/-- The test `((targetSize - 1) - bit_loss) * nPrimes >= nBits`. -/
def stillEnough (bit_loss : α) (nPrimes nBits targetSize : Int) : Prop :=
  (((targetSize - 1 : Int) : α) - bit_loss) * (nPrimes : α) ≥ (nBits : α)

instance (bit_loss : α) (nPrimes nBits targetSize : Int) :
    Decidable (stillEnough bit_loss nPrimes nBits targetSize) := by
  unfold stillEnough; infer_instance

/-- The trimming loop `while (...) targetSize--;`. `SP` is `HELIB_SP_NBITS`. -/
def trimLoop (SP : Int) (bit_loss : α) (nPrimes nBits : Int) (targetSize : Int) : Int :=
  if 10 * (targetSize - 1) ≥ 9 * SP ∧ (targetSize - 1) ≥ 30 ∧
      stillEnough bit_loss nPrimes nBits targetSize then
    trimLoop SP bit_loss nPrimes nBits (targetSize - 1)
  else targetSize
termination_by (targetSize - 30).toNat
decreasing_by omega

/-- The number of primes `long(ceil(nBits / maxPsize))`. -/
def numPrimes (SP : Int) (bit_loss : α) (nBits : Int) : Int :=
  let maxPsize : α := (SP : α) - bit_loss
  ⌈(nBits : α) / maxPsize⌉

/-- The function `ctxtPrimeSize`, over exact arithmetic in an ordered field:
the returned `targetSize` and whether the "non-optimal targetSize" warning was
issued. `SP` is `HELIB_SP_NBITS`, `bit_loss` the value computed from
`PrimeGenerator::B`. -/
def ctxtPrimeSize (SP : Int) (bit_loss : α) (nBits : Int) : Int × Bool :=
  let nPrimes := numPrimes SP bit_loss nBits
  let targetSize := trimLoop SP bit_loss nPrimes nBits SP
  let warned := decide (stillEnough bit_loss nPrimes nBits targetSize)
  (targetSize, warned)

end PrimeSize

/-! ## Key-switching digits of `addSpecialPrimes` (findParameters.cpp, lines 63-100)

A `std::set<long>` is the list of its elements in increasing order. -/

/-- The operation `std::set::insert`. -/
def setInsert (s : List Int) (x : Int) : List Int :=
  if x ∈ s then s else s.orderedInsert (· ≤ ·) x

/-- The operation `std::set::erase`. -/
def setErase (s : List Int) (x : Int) : List Int := s.erase x

/-- HElib's `divc(a, b)`, the ceiling of `a / b`, as the source comments it. -/
def divc (a b : Nat) : Nat := (a + b - 1) / b

/-- The loop `for (long i : remaining) { digits[dgt].insert(i); if (size >= digitCard) break; }`. -/
def fillDigit (digitCard : Nat) : List Int → List Int → List Int
  | [], digit => digit
  | i :: rest, digit =>
    let digit1 := setInsert digit i
    if digit1.length ≥ digitCard then digit1 else fillDigit digitCard rest digit1

/-- The loop `for (long dgt = 0; dgt < nDgts - 1; dgt++)`; `k` counts the
iterations left. Returns the digits and what remains. -/
def digitLoop (nDgts : Nat) :
    Nat → Nat → List Int → List (List Int) → List (List Int) × List Int
  | 0, _, remaining, digits => (digits, remaining)
  | k + 1, dgt, remaining, digits =>
    let digitCard := divc remaining.length (nDgts - dgt)
    let digit := fillDigit digitCard remaining (digits.getD dgt [])
    let remaining1 := digit.foldl setErase remaining
    digitLoop nDgts k (dgt + 1) remaining1 (digits.set dgt digit)

/-- The digit construction of `addSpecialPrimes`: the vector `digits` and
whether the branch "sanity check, use one less digit" was taken. -/
def addSpecialPrimesDigits (primes : List Int) : List (List Int) × Bool :=
  let nCtxtPrimes := primes.length
  let nDgts0 := if 3 > nCtxtPrimes then nCtxtPrimes else 3
  let nDgts := if nDgts0 ≤ 0 then 1 else nDgts0
  let digits : List (List Int) := List.replicate nDgts []
  if nDgts > 1 then
    let r := digitLoop nDgts (nDgts - 1) 0 primes digits
    if r.2.isEmpty then (r.1.take (nDgts - 1), true)
    else (r.1.set (nDgts - 1) r.2, false)
  else (digits.set 0 primes, false)

/-! ## The Comparator (comparator.h): `compare`, `mapTo01_subfield`, `is_zero`

Only the declarations are in `comparator.h`; the bodies follow the
specification of the Comparator engine. -/

/-- Modelled from the spec: the per-digit less-than primitive of section 4.6
(`lessThan`, whose body is missing): 1 if `x < y`, 0 otherwise. -/
def lessThan (x y : Nat) : Nat := if x < y then 1 else 0

/-- Modelled from the spec: the per-digit equality indicator `eq_i` of section
4.8 step (2) (body missing): 1 if the digits are equal, 0 otherwise. -/
def eqDigit (x y : Nat) : Nat := if x = y then 1 else 0

/-- Modelled from the spec: `prefixEq_i` of section 4.8 step (3), the product of
the equality indicators of the digits more significant than position `i`. -/
def prefixEq (eqs : List Nat) (i : Nat) : Nat := (eqs.take i).prod

/-- Modelled from the spec: `Comparator::compare` (body missing) on one batch,
section 4.8 steps (2)-(4): the sum over the digit positions `i` of
`lt_i * prefixEq_i`, in the slot field of characteristic `p`. Digits are listed
most significant first. -/
def compare (p : Nat) (X Y : List Nat) : Nat :=
  let eqs := List.zipWith eqDigit X Y
  let lts := List.zipWith lessThan X Y
  (((List.range lts.length).map (fun i => lts.getD i 0 * prefixEq eqs i)).sum) % p

/-- The integer a digit vector represents in base `encBase`, most significant
digit first. -/
def digitsValue (encBase : Nat) (X : List Nat) : Nat :=
  X.foldl (fun acc x => acc * encBase + x) 0

section SlotField

variable {K : Type} [Field K]

/-- Modelled from the spec: `Comparator::mapTo01_subfield` (body missing),
section 4.6: the Fermat-witness power `x^(p-1)` of the (`pow`-th powered) slot
value, raised to the power `(p^d - 1) / (p - 1)` for the extension degree `d`. -/
def mapTo01_subfield (p d : Nat) (ctxt : K) (pow : Nat) : K :=
  ((ctxt ^ pow) ^ (p - 1)) ^ ((p ^ d - 1) / (p - 1))

/-- Modelled from the spec: `Comparator::is_zero` (body missing), section 4.7:
the complement `1 - a^(q-1)` of the Fermat witness. -/
def is_zero (p d : Nat) (ctxt_z : K) (pow : Nat) : K :=
  1 - mapTo01_subfield p d ctxt_z pow

end SlotField

/-! ## Concrete oracles for the documented run `P 131 1 25743 260 1 10 y` -/

/-- Search for the multiplicative order: least `k >= 1` with `p^k = 1 (mod m)`
among the next `fuel` exponents, `0` when there is none. -/
def multOrdFrom (p m : Nat) : Nat → Nat → Nat → Nat
  | 0, _, _ => 0
  | fuel + 1, k, acc =>
    if acc % m = 1 % m then k else multOrdFrom p m fuel (k + 1) (acc * p % m)

/-- The multiplicative order of `p` modulo `m` (`0` when `p` is not a unit),
the value HElib's `multOrd` returns. -/
def multOrdNat (p m : Nat) : Nat := multOrdFrom p m m 1 (p % m)

/-- Oracles for the documented run: true primality, the true multiplicative
order, a generator search that reports one generator, and a security
estimate of 128 bits. -/
def docOracles : AdjOracles where
  ProbPrime := fun n => decide (Nat.Prime n)
  multOrd := fun p m => (multOrdNat p m : Int)
  findGenerators := fun _ _ _ _ => ([2], [1])
  calculateSecurityLevel := fun _ _ _ => 128

/-- Oracles under which no candidate is ever accepted: nothing is prime. -/
def noPrimeOracles : AdjOracles where
  ProbPrime := fun _ => false
  multOrd := fun _ _ => 0
  findGenerators := fun gens ords _ _ => (gens, ords)
  calculateSecurityLevel := fun _ _ _ => 0

/-! # Theorems -/

/-! ## Drivers: the circuit-type argument -/

/-- C4: when the search of `adjustingParameters` ends without accepting a
candidate, the function returns with `p` and `m` equal to the values passed
in, whatever the primality, order, generator and security oracles answer. -/
theorem C4_adjustingParameters_restores (O : AdjOracles) (p0 m0 nb_primes d : Nat)
    (ss_size : Int) (r : AdjResult)
    (hret : adjustingParameters O p0 m0 nb_primes d ss_size = some r)
    (hfail : r.accepted = false) : r.p = p0 ∧ r.m = m0 := by
  unfold adjustingParameters at hret
  cases hloop : outerLoop O nb_primes d 100 p0 m0 with
  | returned p1 m1 =>
    rw [hloop] at hret
    simp only [Option.some.injEq] at hret
    subst hret
    simp at hfail
  | crashed =>
    rw [hloop] at hret
    simp at hret
  | fellThrough p1 m1 =>
    rw [hloop] at hret
    simp only [Option.some.injEq] at hret
    subst hret
    exact ⟨rfl, rfl⟩

/-- C4 at the documented input with oracles that accept nothing: the search
fails and `p = 131`, `m = 25743` are returned. -/
theorem C4_adjustingParameters_restores_witness :
    adjustingParameters noPrimeOracles 131 25743 260 1 (-1) = some ⟨false, 131, 25743⟩ ∧
    ((⟨false, 131, 25743⟩ : AdjResult).p = 131 ∧ (⟨false, 131, 25743⟩ : AdjResult).m = 25743) :=
  ⟨by decide, C4_adjustingParameters_restores noPrimeOracles 131 25743 260 1 (-1)
    ⟨false, 131, 25743⟩ (by decide) rfl⟩

theorem innerLoop_accept_first (O : AdjOracles) (nb_primes d p n m : Nat) (gens ords : List Int)
    (hp : p ≠ 0) (hm : m % p ≠ 0) (hd : toULong (O.multOrd p m) ≥ d) (h25 : O.multOrd p m < 25)
    (hg : (O.findGenerators gens ords m p).1.length < 16)
    (hs : O.calculateSecurityLevel p m nb_primes > 120) :
    innerLoop O nb_primes d p (n + 1) m gens ords = .accept m := by
  simp only [innerLoop]
  rw [if_neg hp, if_pos ⟨hm, hd, h25⟩, if_pos ⟨hg, hs⟩]

theorem outerLoop_succ (O : AdjOracles) (nb_primes d n p m : Nat) :
    outerLoop O nb_primes d (n + 1) p m =
      if O.ProbPrime p then
        match innerLoop O nb_primes d p 100000 m [] [] with
        | .accept m1 => .returned p m1
        | .divByZero => .crashed
        | .exhausted m1 => outerLoop O nb_primes d n ((p + 1) % ULONG) m1
      else outerLoop O nb_primes d n ((p + 1) % ULONG) m := by
  rw [outerLoop]

/-- A candidate accepted while the outer loop is still at the input `p` is
returned with `p` unchanged. -/
theorem adjustingParameters_keeps_input_prime (O : AdjOracles) (p0 m0 nb_primes d m1 : Nat)
    (ss_size : Int) (hp : O.ProbPrime p0 = true)
    (hin : innerLoop O nb_primes d p0 100000 m0 [] [] = .accept m1) :
    adjustingParameters O p0 m0 nb_primes d ss_size = some ⟨true, p0, m1⟩ := by
  have h : outerLoop O nb_primes d 100 p0 m0 = .returned p0 m1 := by
    have hstep := outerLoop_succ O nb_primes d 99 p0 m0
    rw [if_pos hp, hin] at hstep
    exact hstep
  simp only [adjustingParameters, h]

theorem outerLoop_returned (O : AdjOracles) (nb_primes d : Nat) :
    ∀ (n p m p1 m1 : Nat), p < ULONG → outerLoop O nb_primes d n p m = .returned p1 m1 →
      O.ProbPrime p1 = true ∧ ∃ i, i < n ∧ p1 = (p + i) % ULONG := by
  intro n
  induction n with
  | zero => intro p m p1 m1 _ h; simp [outerLoop] at h
  | succ n ih =>
    intro p m p1 m1 hp h
    have hlt : (p + 1) % ULONG < ULONG := Nat.mod_lt _ (by decide)
    have hshift : ∀ i, ((p + 1) % ULONG + i) % ULONG = (p + (i + 1)) % ULONG := by
      intro i
      rw [Nat.add_mod, Nat.mod_mod, ← Nat.add_mod]
      congr 1; omega
    rw [outerLoop_succ] at h
    split_ifs at h with hpr
    · cases hin : innerLoop O nb_primes d p 100000 m [] [] with
      | accept m2 =>
        rw [hin] at h
        simp only [OuterEnd.returned.injEq] at h
        obtain ⟨rfl, rfl⟩ := h
        exact ⟨hpr, 0, Nat.succ_pos _, by rw [Nat.add_zero, Nat.mod_eq_of_lt hp]⟩
      | divByZero => rw [hin] at h; simp at h
      | exhausted m2 =>
        rw [hin] at h
        obtain ⟨h1, i, hi, h2⟩ := ih _ _ _ _ hlt h
        exact ⟨h1, i + 1, by omega, by rw [h2, hshift]⟩
    · obtain ⟨h1, i, hi, h2⟩ := ih _ _ _ _ hlt h
      exact ⟨h1, i + 1, by omega, by rw [h2, hshift]⟩

/-- What `adjustingParameters` guarantees about an accepted `p`: it passed
`ProbPrime` and is the input advanced by fewer than 100 increments (modulo
`2^64`), the input itself included. -/
theorem adjustingParameters_accepted_prime (O : AdjOracles) (p0 m0 nb_primes d : Nat)
    (ss_size : Int) (r : AdjResult) (hp0 : p0 < ULONG)
    (hret : adjustingParameters O p0 m0 nb_primes d ss_size = some r)
    (hacc : r.accepted = true) :
    O.ProbPrime r.p = true ∧ ∃ i, i < 100 ∧ r.p = (p0 + i) % ULONG := by
  unfold adjustingParameters at hret
  cases hloop : outerLoop O nb_primes d 100 p0 m0 with
  | returned p1 m1 =>
    rw [hloop] at hret
    simp only [Option.some.injEq] at hret
    subst hret
    exact outerLoop_returned O nb_primes d 100 p0 m0 p1 m1 hp0 hloop
  | crashed => rw [hloop] at hret; simp at hret
  | fellThrough p1 m1 =>
    rw [hloop] at hret
    simp only [Option.some.injEq] at hret
    subst hret
    simp at hacc

theorem adjustingParameters_accepted_prime_witness :
    docOracles.ProbPrime 131 = true ∧ ∃ i, i < 100 ∧ 131 = (131 + i) % ULONG :=
  adjustingParameters_accepted_prime docOracles 131 25743 260 1 (-11) ⟨true, 131, 25743⟩
    (by decide)
    (adjustingParameters_keeps_input_prime docOracles 131 25743 260 1 25743 (-11)
      (by simp only [docOracles, decide_eq_true_eq]; norm_num)
      (innerLoop_accept_first docOracles 260 1 131 99999 25743 [] [] (by decide) (by decide)
        (by decide) (by decide) (by decide) (by decide)))
    rfl

/-- C7 (the code at the documented run `P 131 1 25743 260 1 10 y`): with the
true primality test and multiplicative order, and a generator search and a
security estimate that accept, `adjustingParameters` returns `p = 131`, the
input itself, which is not strictly greater than the `p` passed in. -/
theorem C7_documented_run_returns_input_p :
    adjustingParameters docOracles 131 25743 260 1 (-11) = some ⟨true, 131, 25743⟩ ∧
    ¬ (131 < (⟨true, 131, 25743⟩ : AdjResult).p) :=
  ⟨adjustingParameters_keeps_input_prime docOracles 131 25743 260 1 25743 (-11)
      (by simp only [docOracles, decide_eq_true_eq]; norm_num)
      (innerLoop_accept_first docOracles 260 1 131 99999 25743 [] [] (by decide) (by decide)
        (by decide) (by decide) (by decide) (by decide)),
    by decide⟩

theorem innerLoop_ne_divByZero (O : AdjOracles) (nb_primes d p : Nat) (hp : p ≠ 0) :
    ∀ (n m : Nat) (gens ords : List Int),
      innerLoop O nb_primes d p n m gens ords ≠ .divByZero := by
  intro n
  induction n with
  | zero => intro m gens ords; simp [innerLoop]
  | succ n ih =>
    intro m gens ords
    rw [innerLoop]
    simp only [if_neg hp]
    split_ifs
    · simp
    · exact ih _ _ _
    · exact ih _ _ _

theorem outerLoop_ne_crashed (O : AdjOracles) (nb_primes d : Nat)
    (h0 : O.ProbPrime 0 = false) :
    ∀ (n p m : Nat), outerLoop O nb_primes d n p m ≠ .crashed := by
  intro n
  induction n with
  | zero => intro p m; simp [outerLoop]
  | succ n ih =>
    intro p m
    rw [outerLoop_succ]
    split_ifs with hpr
    · have hp : p ≠ 0 := by
        rintro rfl
        rw [h0] at hpr
        exact Bool.false_ne_true hpr
      cases hin : innerLoop O nb_primes d p 100000 m [] [] with
      | accept m1 => simp
      | divByZero => exact absurd hin (innerLoop_ne_divByZero O nb_primes d p hp _ _ _ _)
      | exhausted m1 => exact ih _ _
    · exact ih _ _

/-- The function `adjustingParameters` always returns when the primality test
rejects 0 (as `ProbPrime` does): both loops are bounded and `m % p` is then
only evaluated for `p > 0`. -/
theorem adjustingParameters_returns (O : AdjOracles) (p0 m0 nb_primes d : Nat)
    (ss_size : Int) (h0 : O.ProbPrime 0 = false) :
    ∃ r, adjustingParameters O p0 m0 nb_primes d ss_size = some r := by
  unfold adjustingParameters
  cases hloop : outerLoop O nb_primes d 100 p0 m0 with
  | returned p1 m1 => exact ⟨_, rfl⟩
  | crashed => exact absurd hloop (outerLoop_ne_crashed O nb_primes d h0 _ _ _)
  | fellThrough p1 m1 => exact ⟨_, rfl⟩

theorem adjustingParameters_returns_witness :
    ∃ r, adjustingParameters noPrimeOracles 131 25743 260 1 (-1) = some r :=
  adjustingParameters_returns noPrimeOracles 131 25743 260 1 (-1) rfl

/-! ## `ctxtPrimeSize` -/

theorem trimLoop_pos {α : Type} [LinearOrderedField α] (SP : Int) (bl : α) (nP nB t : Int)
    (h : 10 * (t - 1) ≥ 9 * SP ∧ (t - 1) ≥ 30 ∧ stillEnough bl nP nB t) :
    trimLoop SP bl nP nB t = trimLoop SP bl nP nB (t - 1) := by
  rw [trimLoop, if_pos h]

theorem trimLoop_neg {α : Type} [LinearOrderedField α] (SP : Int) (bl : α) (nP nB t : Int)
    (h : ¬ (10 * (t - 1) ≥ 9 * SP ∧ (t - 1) ≥ 30 ∧ stillEnough bl nP nB t)) :
    trimLoop SP bl nP nB t = t := by
  rw [trimLoop, if_neg h]

/-- The bit requirement at size `t`: `(t - bit_loss) * nPrimes >= nBits`. -/
theorem stillEnough_succ {α : Type} [LinearOrderedField α] (bl : α) (nP nB t : Int) :
    stillEnough bl nP nB (t + 1) ↔ ((t : α) - bl) * (nP : α) ≥ (nB : α) := by
  unfold stillEnough
  simp

theorem trimLoop_le {α : Type} [LinearOrderedField α] (SP : Int) (bl : α) (nP nB t : Int) :
    trimLoop SP bl nP nB t ≤ t := by
  induction t using trimLoop.induct SP bl nP nB with
  | case1 x h ih => rw [trimLoop_pos SP bl nP nB x h]; omega
  | case2 x h => rw [trimLoop_neg SP bl nP nB x h]

theorem trimLoop_ge_ratio {α : Type} [LinearOrderedField α] (SP : Int) (bl : α)
    (nP nB t : Int) (ht : 10 * t ≥ 9 * SP) : 10 * trimLoop SP bl nP nB t ≥ 9 * SP := by
  induction t using trimLoop.induct SP bl nP nB with
  | case1 x h ih => rw [trimLoop_pos SP bl nP nB x h]; exact ih h.1
  | case2 x h => rw [trimLoop_neg SP bl nP nB x h]; exact ht

theorem trimLoop_ge_thirty {α : Type} [LinearOrderedField α] (SP : Int) (bl : α)
    (nP nB t : Int) (ht : 30 ≤ t) : 30 ≤ trimLoop SP bl nP nB t := by
  induction t using trimLoop.induct SP bl nP nB with
  | case1 x h ih => rw [trimLoop_pos SP bl nP nB x h]; exact ih h.2.1
  | case2 x h => rw [trimLoop_neg SP bl nP nB x h]; exact ht

theorem trimLoop_enough {α : Type} [LinearOrderedField α] (SP : Int) (bl : α)
    (nP nB t : Int) (ht : stillEnough bl nP nB (t + 1)) :
    stillEnough bl nP nB (trimLoop SP bl nP nB t + 1) := by
  induction t using trimLoop.induct SP bl nP nB with
  | case1 x h ih =>
    rw [trimLoop_pos SP bl nP nB x h]
    apply ih
    have h3 := h.2.2
    rwa [show x - 1 + 1 = x by ring]
  | case2 x h => rw [trimLoop_neg SP bl nP nB x h]; exact ht

/-- The starting size meets the bit requirement: `nPrimes` primes of
`maxPsize` bits reach `nBits`. -/
theorem stillEnough_start {α : Type} [LinearOrderedField α] [FloorRing α] (SP : Int) (bl : α)
    (nB : Int) (hbl : bl < (SP : α)) :
    stillEnough bl (numPrimes SP bl nB) nB (SP + 1) := by
  rw [stillEnough_succ]
  have hpos : (0 : α) < (SP : α) - bl := sub_pos.mpr hbl
  have hceil : (nB : α) / ((SP : α) - bl) ≤ ((numPrimes SP bl nB : Int) : α) := by
    unfold numPrimes
    exact Int.le_ceil _
  have := (div_le_iff₀ hpos).mp hceil
  rw [mul_comm] at this
  exact this

/-- C8: with `nPrimes = ceil(nBits / (HELIB_SP_NBITS - bit_loss))` in exact
arithmetic, the size `t` returned by `ctxtPrimeSize` satisfies
`(t - bit_loss) * nPrimes >= nBits`, `t <= HELIB_SP_NBITS`,
`10 * t >= 9 * HELIB_SP_NBITS` and, for `HELIB_SP_NBITS >= 30`, `t >= 30`. -/
theorem C8_ctxtPrimeSize_keeps_guarantee {α : Type} [LinearOrderedField α] [FloorRing α]
    (SP : Int) (bit_loss : α) (nBits : Int) (hbl : bit_loss < (SP : α)) :
    ((((ctxtPrimeSize SP bit_loss nBits).1 : Int) : α) - bit_loss) *
        ((⌈(nBits : α) / ((SP : α) - bit_loss)⌉ : Int) : α) ≥ (nBits : α) ∧
    (ctxtPrimeSize SP bit_loss nBits).1 ≤ SP ∧
    (0 ≤ SP → 10 * (ctxtPrimeSize SP bit_loss nBits).1 ≥ 9 * SP) ∧
    (30 ≤ SP → 30 ≤ (ctxtPrimeSize SP bit_loss nBits).1) := by
  refine ⟨?_, trimLoop_le _ _ _ _ _, fun h => trimLoop_ge_ratio _ _ _ _ _ (by omega),
    fun h => trimLoop_ge_thirty _ _ _ _ _ h⟩
  have h := trimLoop_enough SP bit_loss (numPrimes SP bit_loss nBits) nBits SP
    (stillEnough_start SP bit_loss nBits hbl)
  rw [stillEnough_succ] at h
  exact h

/-- C8 at `HELIB_SP_NBITS = 60`, `bit_loss = 1/5`, `nBits = 590`. -/
theorem C8_ctxtPrimeSize_keeps_guarantee_witness :
    ((((ctxtPrimeSize 60 (1 / 5 : ℚ) 590).1 : Int) : ℚ) - 1 / 5) *
        ((⌈((590 : Int) : ℚ) / (((60 : Int) : ℚ) - 1 / 5)⌉ : Int) : ℚ) ≥ ((590 : Int) : ℚ) ∧
    (ctxtPrimeSize 60 (1 / 5 : ℚ) 590).1 ≤ 60 ∧
    (0 ≤ (60 : Int) → 10 * (ctxtPrimeSize 60 (1 / 5 : ℚ) 590).1 ≥ 9 * 60) ∧
    (30 ≤ (60 : Int) → 30 ≤ (ctxtPrimeSize 60 (1 / 5 : ℚ) 590).1) :=
  C8_ctxtPrimeSize_keeps_guarantee 60 (1 / 5 : ℚ) 590 (by norm_num)

theorem numPrimes_example_one : numPrimes 60 (1 / 5 : ℚ) 1 = 1 := by
  unfold numPrimes
  rw [Int.ceil_eq_iff]
  norm_num

theorem numPrimes_example_590 : numPrimes 60 (1 / 5 : ℚ) 590 = 10 := by
  unfold numPrimes
  rw [Int.ceil_eq_iff]
  norm_num

theorem ctxtPrimeSize_example_warned : ctxtPrimeSize 60 (1 / 5 : ℚ) 1 = (54, true) := by
  unfold ctxtPrimeSize
  rw [numPrimes_example_one]
  have h : trimLoop 60 (1 / 5 : ℚ) 1 1 60 = 54 := by
    rw [trimLoop_pos 60 _ 1 1 60 (by norm_num [stillEnough]),
      trimLoop_pos 60 _ 1 1 (60 - 1) (by norm_num [stillEnough]),
      trimLoop_pos 60 _ 1 1 (60 - 1 - 1) (by norm_num [stillEnough]),
      trimLoop_pos 60 _ 1 1 (60 - 1 - 1 - 1) (by norm_num [stillEnough]),
      trimLoop_pos 60 _ 1 1 (60 - 1 - 1 - 1 - 1) (by norm_num [stillEnough]),
      trimLoop_pos 60 _ 1 1 (60 - 1 - 1 - 1 - 1 - 1) (by norm_num [stillEnough]),
      trimLoop_neg 60 _ 1 1 (60 - 1 - 1 - 1 - 1 - 1 - 1) (by norm_num [stillEnough])]
    norm_num
  simp only [h]
  norm_num [stillEnough]

theorem ctxtPrimeSize_example_silent : ctxtPrimeSize 60 (1 / 5 : ℚ) 590 = (60, false) := by
  unfold ctxtPrimeSize
  rw [numPrimes_example_590]
  have h : trimLoop 60 (1 / 5 : ℚ) 10 590 60 = 60 := by
    rw [trimLoop_neg 60 _ 10 590 60 (by norm_num [stillEnough])]
  simp only [h]
  norm_num [stillEnough]

/-- C6: `ctxtPrimeSize` always returns a size (it is a total function); the
"non-optimal targetSize" warning is issued exactly when
`((t - 1) - bit_loss) * nPrimes >= nBits` holds for the returned `t`, which
(when `bit_loss < HELIB_SP_NBITS`) says that `t` is not the smallest size
meeting the bit requirement; the returned size is the result of the trimming
loop, whether or not the warning is issued. -/
theorem C6_ctxtPrimeSize_warning_advisory {α : Type} [LinearOrderedField α] [FloorRing α]
    (SP : Int) (bit_loss : α) (nBits : Int) :
    ((ctxtPrimeSize SP bit_loss nBits).2 = true ↔
      ((((ctxtPrimeSize SP bit_loss nBits).1 - 1 : Int) : α) - bit_loss) *
        ((⌈(nBits : α) / ((SP : α) - bit_loss)⌉ : Int) : α) ≥ (nBits : α)) ∧
    (ctxtPrimeSize SP bit_loss nBits).1 =
      trimLoop SP bit_loss ⌈(nBits : α) / ((SP : α) - bit_loss)⌉ nBits SP ∧
    (bit_loss < (SP : α) →
      ((ctxtPrimeSize SP bit_loss nBits).2 = true ↔
        ∃ s : Int, s < (ctxtPrimeSize SP bit_loss nBits).1 ∧
          ((s : α) - bit_loss) * ((⌈(nBits : α) / ((SP : α) - bit_loss)⌉ : Int) : α)
            ≥ (nBits : α))) := by
  have hw : (ctxtPrimeSize SP bit_loss nBits).2 = true ↔
      ((((ctxtPrimeSize SP bit_loss nBits).1 - 1 : Int) : α) - bit_loss) *
        ((⌈(nBits : α) / ((SP : α) - bit_loss)⌉ : Int) : α) ≥ (nBits : α) := by
    simp only [ctxtPrimeSize, decide_eq_true_eq]
    rfl
  refine ⟨hw, rfl, fun hbl => ?_⟩
  rw [hw]
  set t := (ctxtPrimeSize SP bit_loss nBits).1 with ht
  set nP : Int := ⌈(nBits : α) / ((SP : α) - bit_loss)⌉ with hnP
  have hreq : ((t : α) - bit_loss) * (nP : α) ≥ (nBits : α) := by
    have h := trimLoop_enough SP bit_loss (numPrimes SP bit_loss nBits) nBits SP
      (stillEnough_start SP bit_loss nBits hbl)
    rw [stillEnough_succ] at h
    exact h
  constructor
  · intro h
    exact ⟨t - 1, by omega, h⟩
  · rintro ⟨s, hs, hsreq⟩
    have hcast : (((t - 1 : Int) : α)) = (t : α) - 1 := by push_cast; ring
    rw [hcast]
    rcases le_or_lt 0 nP with hpos | hneg
    · have hst : (s : α) ≤ (t : α) - 1 := by
        have : s ≤ t - 1 := by omega
        have := (Int.cast_le (R := α)).mpr this
        rwa [hcast] at this
      have hnPpos : (0 : α) ≤ (nP : α) := by exact_mod_cast hpos
      have : ((s : α) - bit_loss) * (nP : α) ≤ ((t : α) - 1 - bit_loss) * (nP : α) :=
        mul_le_mul_of_nonneg_right (by linarith) hnPpos
      exact le_trans hsreq this
    · have hnPneg : (nP : α) < 0 := by exact_mod_cast hneg
      have : ((t : α) - 1 - bit_loss) * (nP : α) = ((t : α) - bit_loss) * (nP : α) - (nP : α) := by
        ring
      rw [ge_iff_le, this]
      linarith

/-- C6 at `HELIB_SP_NBITS = 60`, `bit_loss = 1/5`: for `nBits = 1` the size is
trimmed to 54 and the warning is issued, for `nBits = 590` the size 60 is
returned without warning. -/
theorem C6_ctxtPrimeSize_warning_advisory_witness :
    ctxtPrimeSize 60 (1 / 5 : ℚ) 1 = (54, true) ∧
    ctxtPrimeSize 60 (1 / 5 : ℚ) 590 = (60, false) ∧
    ((1 / 5 : ℚ) < ((60 : Int) : ℚ)) ∧
    ((ctxtPrimeSize 60 (1 / 5 : ℚ) 1).2 = true ↔
        ∃ s : Int, s < (ctxtPrimeSize 60 (1 / 5 : ℚ) 1).1 ∧
          ((s : ℚ) - 1 / 5) * ((⌈((1 : Int) : ℚ) / (((60 : Int) : ℚ) - 1 / 5)⌉ : Int) : ℚ)
            ≥ ((1 : Int) : ℚ)) :=
  ⟨ctxtPrimeSize_example_warned, ctxtPrimeSize_example_silent, by norm_num,
    (C6_ctxtPrimeSize_warning_advisory 60 (1 / 5 : ℚ) 1).2.2 (by norm_num)⟩

/-! ## Key-switching digits -/

theorem orderedInsert_of_lt (i : Int) :
    ∀ digit : List Int, (∀ y ∈ digit, y < i) → digit.orderedInsert (· ≤ ·) i = digit ++ [i] := by
  intro digit
  induction digit with
  | nil => intro _; rfl
  | cons a t ih =>
    intro h
    have ha : a < i := h a (List.mem_cons_self _ _)
    rw [List.orderedInsert, if_neg (by omega), ih (fun y hy => h y (List.mem_cons_of_mem _ hy))]
    rfl

theorem setInsert_of_lt (i : Int) (digit : List Int) (h : ∀ y ∈ digit, y < i) :
    setInsert digit i = digit ++ [i] := by
  unfold setInsert
  rw [if_neg (fun hmem => lt_irrefl i (h i hmem)), orderedInsert_of_lt i digit h]

theorem fillDigit_eq_take (c : Nat) :
    ∀ (rem digit : List Int), (digit ++ rem).Sorted (· < ·) → digit.length < c →
      fillDigit c rem digit = digit ++ rem.take (c - digit.length) := by
  intro rem
  induction rem with
  | nil => intro digit _ _; simp [fillDigit]
  | cons i rest ih =>
    intro digit hs hlen
    have hlt : ∀ y ∈ digit, y < i := by
      intro y hy
      have := List.pairwise_append.mp hs
      exact this.2.2 y hy i (List.mem_cons_self _ _)
    rw [fillDigit]
    simp only [setInsert_of_lt i digit hlt, List.length_append, List.length_singleton]
    split_ifs with hc
    · have : c - digit.length = 1 := by omega
      rw [this]; simp
    · have hs2 : ((digit ++ [i]) ++ rest).Sorted (· < ·) := by simpa using hs
      rw [ih (digit ++ [i]) hs2 (by simp; omega)]
      have : c - digit.length = (c - (digit ++ [i]).length) + 1 := by simp; omega
      rw [this, List.take_succ_cons]
      simp

theorem foldl_setErase_take :
    ∀ (c : Nat) (rem : List Int), rem.Nodup → (rem.take c).foldl setErase rem = rem.drop c := by
  intro c
  induction c with
  | zero => intro rem _; simp
  | succ c ih =>
    intro rem hnd
    cases rem with
    | nil => simp
    | cons a t =>
      rw [List.take_succ_cons, List.foldl_cons, List.drop_succ_cons]
      have : setErase (a :: t) a = t := by simp [setErase]
      rw [this]
      exact ih t hnd.of_cons

theorem digitLoop_step_sorted (nDgts k dgt : Nat) (remaining : List Int)
    (digits : List (List Int)) (hs : remaining.Sorted (· < ·))
    (hempty : digits.getD dgt [] = []) (hc : 0 < divc remaining.length (nDgts - dgt)) :
    digitLoop nDgts (k + 1) dgt remaining digits =
      digitLoop nDgts k (dgt + 1) (remaining.drop (divc remaining.length (nDgts - dgt)))
        (digits.set dgt (remaining.take (divc remaining.length (nDgts - dgt)))) := by
  have hfill : fillDigit (divc remaining.length (nDgts - dgt)) remaining [] =
      remaining.take (divc remaining.length (nDgts - dgt)) := by
    have := fillDigit_eq_take (divc remaining.length (nDgts - dgt)) remaining []
      (by simpa using hs) (by simpa using hc)
    simpa using this
  rw [digitLoop]
  simp only [hempty, hfill]
  rw [foldl_setErase_take _ _ hs.nodup]

/-- The digits `addSpecialPrimes` builds from at least three primes. -/
theorem addSpecialPrimesDigits_three (primes : List Int) (hs : primes.Sorted (· < ·))
    (hn : 3 ≤ primes.length) :
    addSpecialPrimesDigits primes =
      ([primes.take (divc primes.length 3),
        (primes.drop (divc primes.length 3)).take
          (divc (primes.length - divc primes.length 3) 2),
        (primes.drop (divc primes.length 3)).drop
          (divc (primes.length - divc primes.length 3) 2)], false) := by
  have hc0 : 0 < divc primes.length 3 := by unfold divc; omega
  have hc0le : divc primes.length 3 + 2 ≤ primes.length := by unfold divc; omega
  have hs1 : (primes.drop (divc primes.length 3)).Sorted (· < ·) :=
    List.Pairwise.sublist (List.drop_sublist _ _) hs
  have hlen1 : (primes.drop (divc primes.length 3)).length =
      primes.length - divc primes.length 3 := List.length_drop _ _
  have hc1 : 0 < divc (primes.length - divc primes.length 3) 2 := by
    unfold divc at hc0le ⊢; omega
  have hc1lt : divc (primes.length - divc primes.length 3) 2 <
      primes.length - divc primes.length 3 := by
    unfold divc at hc0le ⊢; omega
  have hne : ((primes.drop (divc primes.length 3)).drop
      (divc (primes.length - divc primes.length 3) 2)) ≠ [] := by
    intro h
    have := congrArg List.length h
    rw [List.length_drop, hlen1] at this
    simp at this
    omega
  unfold addSpecialPrimesDigits
  have h3 : ¬ (3 > primes.length) := by omega
  simp only [h3, if_false]
  simp only [show ¬ ((3 : Nat) ≤ 0) by decide, if_false, show (3 : Nat) > 1 by decide, if_true,
    show (3 : Nat) - 1 = 2 by rfl]
  rw [digitLoop_step_sorted 3 1 0 primes _ hs (by simp [List.replicate]) (by simpa using hc0)]
  simp only [Nat.sub_zero, Nat.zero_add]
  rw [digitLoop_step_sorted 3 0 1 _ _ hs1 (by simp [List.replicate])
    (by rw [hlen1]; simpa using hc1)]
  simp only [hlen1, show (3 : Nat) - 1 = 2 by rfl, digitLoop]
  rw [if_neg (by simpa using hne)]
  simp [List.replicate]

/-- The digits `addSpecialPrimes` builds from two primes. -/
theorem addSpecialPrimesDigits_two (a b : Int) (hab : a < b) :
    addSpecialPrimesDigits [a, b] = ([[a], [b]], false) := by
  have hs : [a, b].Sorted (· < ·) := by simp [hab]
  unfold addSpecialPrimesDigits
  simp only [List.length_cons, List.length_nil, show (3 : Nat) > 0 + 1 + 1 by decide, if_true,
    show ¬ ((0 + 1 + 1 : Nat) ≤ 0) by decide, if_false, show (0 + 1 + 1 : Nat) > 1 by decide,
    show (0 + 1 + 1 : Nat) - 1 = 1 by rfl]
  rw [digitLoop_step_sorted 2 0 0 [a, b] (List.replicate 2 []) hs (by simp [List.replicate])
    (by simp [divc])]
  simp [digitLoop, divc, List.replicate]

theorem digits_partition_of_flatten (primes : List Int) (digits : List (List Int))
    (hs : primes.Sorted (· < ·)) (hj : digits.flatten = primes) :
    digits.Pairwise List.Disjoint ∧ ∀ x, x ∈ primes ↔ ∃ D ∈ digits, x ∈ D := by
  subst hj
  exact ⟨(List.nodup_flatten.mp hs.nodup).2, fun x => List.mem_flatten⟩

/-- C9: for a set of `n` primes (listed in increasing order) the key-switching
digits of `addSpecialPrimes` are pairwise disjoint with union the input set;
there are `min(3, n)` of them (one empty digit when `n = 0`); every digit but
the last holds the `ceil(remaining / remaining-digits)` smallest primes not yet
assigned and the last digit holds everything else; every digit is non-empty
when `n >= 1`, and the branch "use one less digit" is never taken. -/
theorem C9_addSpecialPrimes_digits_partition (primes : List Int)
    (hs : primes.Sorted (· < ·)) :
    (addSpecialPrimesDigits primes).1.Pairwise List.Disjoint ∧
    (∀ x, x ∈ primes ↔ ∃ D ∈ (addSpecialPrimesDigits primes).1, x ∈ D) ∧
    (addSpecialPrimesDigits primes).1.flatten = primes ∧
    (addSpecialPrimesDigits primes).1.length =
      (if primes.length = 0 then 1 else min 3 primes.length) ∧
    (primes.length = 0 → (addSpecialPrimesDigits primes).1 = [[]]) ∧
    (∀ k, k + 1 < (addSpecialPrimesDigits primes).1.length →
      (addSpecialPrimesDigits primes).1.getD k [] =
        (primes.drop (((addSpecialPrimesDigits primes).1.take k).flatten.length)).take
          (divc (primes.length - ((addSpecialPrimesDigits primes).1.take k).flatten.length)
            ((addSpecialPrimesDigits primes).1.length - k))) ∧
    ((addSpecialPrimesDigits primes).1.getD ((addSpecialPrimesDigits primes).1.length - 1) [] =
      primes.drop (((addSpecialPrimesDigits primes).1.take
        ((addSpecialPrimesDigits primes).1.length - 1)).flatten.length)) ∧
    (1 ≤ primes.length → ∀ D ∈ (addSpecialPrimesDigits primes).1, D ≠ []) ∧
    (addSpecialPrimesDigits primes).2 = false := by
  rcases Nat.lt_or_ge primes.length 3 with hlt | hge
  · match primes, hs, hlt with
    | [], _, _ =>
      have h : addSpecialPrimesDigits [] = ([[]], false) := by decide
      rw [h]
      simp
    | [a], _, _ =>
      have h : addSpecialPrimesDigits [a] = ([[a]], false) := by
        simp [addSpecialPrimesDigits, List.replicate]
      rw [h]
      simp
    | [a, b], hs, _ =>
      have hab : a < b := by simpa using hs
      rw [addSpecialPrimesDigits_two a b hab]
      refine ⟨?_, ?_, ?_, ?_, ?_, ?_, ?_, ?_, ?_⟩
      · simp [List.disjoint_left]; omega
      · intro x; simp
      · simp
      · simp
      · simp
      · intro k hk
        have hk0 : k = 0 := by simp at hk; omega
        subst hk0
        simp [divc]
      · simp
      · simp
      · rfl
    | _ :: _ :: _ :: _, _, hlt => simp at hlt; omega
  · have h3 := addSpecialPrimesDigits_three primes hs hge
    have hc0 : 0 < divc primes.length 3 := by unfold divc; omega
    have hc0le : divc primes.length 3 + 2 ≤ primes.length := by unfold divc; omega
    have hc1 : 0 < divc (primes.length - divc primes.length 3) 2 := by
      unfold divc at hc0le ⊢; omega
    have hc1lt : divc (primes.length - divc primes.length 3) 2 <
        primes.length - divc primes.length 3 := by
      unfold divc at hc0le ⊢; omega
    set c0 := divc primes.length 3 with hc0def
    set c1 := divc (primes.length - c0) 2 with hc1def
    have hflat : [primes.take c0, (primes.drop c0).take c1, (primes.drop c0).drop c1].flatten
        = primes := by
      simp [List.flatten]
    have hl0 : (primes.take c0).length = c0 := by rw [List.length_take]; omega
    have hl1 : ((primes.drop c0).take c1).length = c1 := by
      rw [List.length_take, List.length_drop]; omega
    have hl2 : ((primes.drop c0).drop c1).length = primes.length - c0 - c1 := by
      rw [List.length_drop, List.length_drop]
    rw [h3]
    have hpart := digits_partition_of_flatten primes _ hs hflat
    refine ⟨hpart.1, hpart.2, hflat, ?_, ?_, ?_, ?_, ?_, rfl⟩
    · have : primes.length ≠ 0 := by omega
      simp [this]; omega
    · intro h0; omega
    · intro k hk
      have hk' : k = 0 ∨ k = 1 := by simp at hk; omega
      rcases hk' with rfl | rfl
      · simp [← hc0def]
      · simp [hl0, ← hc1def]
    · simp [hl0, hl1, List.drop_drop, Nat.add_comm]
    · intro _ D hD
      simp only [List.mem_cons, List.mem_singleton, List.not_mem_nil, or_false] at hD
      rcases hD with rfl | rfl | rfl
      · intro h; rw [h] at hl0; simp at hl0; omega
      · intro h; rw [h] at hl1; simp at hl1; omega
      · intro h; rw [h] at hl2; simp at hl2; omega

/-- C9 at the primes `5, 7, 11, 13, 17`: the digits are `5 7`, `11 13`, `17`. -/
theorem C9_addSpecialPrimes_digits_partition_witness :
    addSpecialPrimesDigits [5, 7, 11, 13, 17] = ([[5, 7], [11, 13], [17]], false) ∧
    (addSpecialPrimesDigits [5, 7, 11, 13, 17]).1.Pairwise List.Disjoint ∧
    (addSpecialPrimesDigits [5, 7, 11, 13, 17]).1.flatten = [5, 7, 11, 13, 17] :=
  ⟨by decide,
    (C9_addSpecialPrimes_digits_partition [5, 7, 11, 13, 17] (by decide)).1,
    (C9_addSpecialPrimes_digits_partition [5, 7, 11, 13, 17] (by decide)).2.2.1⟩

/-! ## `Comparator::compare` -/

/-- The aggregated sum of `compare` before the reduction to the slot field. -/
theorem compare_eq_mod (p : Nat) (X Y : List Nat) :
    compare p X Y =
      (((List.range (List.zipWith lessThan X Y).length).map
        (fun i => (List.zipWith lessThan X Y).getD i 0 *
          prefixEq (List.zipWith eqDigit X Y) i)).sum) % p := rfl

theorem aggregate_cons (x y : Nat) (X Y : List Nat) :
    ((List.range (List.zipWith lessThan (x :: X) (y :: Y)).length).map
        (fun i => (List.zipWith lessThan (x :: X) (y :: Y)).getD i 0 *
          prefixEq (List.zipWith eqDigit (x :: X) (y :: Y)) i)).sum =
      lessThan x y + eqDigit x y *
        ((List.range (List.zipWith lessThan X Y).length).map
          (fun i => (List.zipWith lessThan X Y).getD i 0 *
            prefixEq (List.zipWith eqDigit X Y) i)).sum := by
  simp only [List.zipWith_cons_cons, List.length_cons, List.range_succ_eq_map, List.map_cons,
    List.sum_cons, List.map_map]
  congr 1
  · simp [prefixEq]
  · rw [← List.sum_map_mul_left]
    congr 1
    apply List.map_congr_left
    intro i _
    simp only [Function.comp, prefixEq, List.getD_cons_succ, List.take_succ_cons, List.prod_cons]
    ring

theorem digitsValue_foldl (b : Nat) :
    ∀ (X : List Nat) (acc : Nat),
      X.foldl (fun a x => a * b + x) acc = acc * b ^ X.length + digitsValue b X := by
  intro X
  induction X with
  | nil => intro acc; simp [digitsValue]
  | cons x X ih =>
    intro acc
    simp only [List.foldl_cons, digitsValue, List.length_cons]
    rw [ih (acc * b + x), ih (0 * b + x)]
    simp only [digitsValue]
    ring

theorem digitsValue_cons (b x : Nat) (X : List Nat) :
    digitsValue b (x :: X) = x * b ^ X.length + digitsValue b X := by
  have := digitsValue_foldl b X (0 * b + x)
  simp only [digitsValue, List.foldl_cons] at this ⊢
  rw [this]; ring

theorem digitsValue_lt (b : Nat) :
    ∀ X : List Nat, (∀ x ∈ X, x < b) → digitsValue b X < b ^ X.length := by
  intro X
  induction X with
  | nil => intro _; simp [digitsValue]
  | cons x X ih =>
    intro h
    have hx : x < b := h x (List.mem_cons_self _ _)
    have hX := ih (fun z hz => h z (List.mem_cons_of_mem _ hz))
    rw [digitsValue_cons, List.length_cons, pow_succ]
    calc x * b ^ X.length + digitsValue b X < x * b ^ X.length + b ^ X.length := by omega
      _ = (x + 1) * b ^ X.length := by ring
      _ ≤ b * b ^ X.length := Nat.mul_le_mul_right _ hx
      _ = b ^ X.length * b := by ring

theorem aggregate_eq_lt (b : Nat) :
    ∀ (X Y : List Nat), X.length = Y.length → (∀ x ∈ X, x < b) → (∀ y ∈ Y, y < b) →
      ((List.range (List.zipWith lessThan X Y).length).map
        (fun i => (List.zipWith lessThan X Y).getD i 0 *
          prefixEq (List.zipWith eqDigit X Y) i)).sum =
        if digitsValue b X < digitsValue b Y then 1 else 0 := by
  intro X
  induction X with
  | nil =>
    intro Y hlen _ _
    have : Y = [] := List.length_eq_zero.mp hlen.symm
    subst this
    simp [digitsValue]
  | cons x X ih =>
    intro Y hlen hX hY
    cases Y with
    | nil => simp at hlen
    | cons y Y =>
      have hlen' : X.length = Y.length := by simpa using hlen
      have hXv := digitsValue_lt b X (fun z hz => hX z (List.mem_cons_of_mem _ hz))
      have hYv := digitsValue_lt b Y (fun z hz => hY z (List.mem_cons_of_mem _ hz))
      rw [aggregate_cons,
        ih Y hlen' (fun z hz => hX z (List.mem_cons_of_mem _ hz))
          (fun z hz => hY z (List.mem_cons_of_mem _ hz)),
        digitsValue_cons, digitsValue_cons, ← hlen']
      rw [← hlen'] at hYv
      rcases Nat.lt_trichotomy x y with hxy | hxy | hxy
      · have h1 : (x + 1) * b ^ X.length ≤ y * b ^ X.length := Nat.mul_le_mul_right _ hxy
        have h2 : (x + 1) * b ^ X.length = x * b ^ X.length + b ^ X.length := by ring
        have : x * b ^ X.length + digitsValue b X < y * b ^ X.length + digitsValue b Y := by
          omega
        simp [lessThan, eqDigit, hxy, Nat.ne_of_lt hxy, this]
      · subst hxy
        simp [lessThan, eqDigit]
      · have h1 : (y + 1) * b ^ X.length ≤ x * b ^ X.length := Nat.mul_le_mul_right _ hxy
        have h2 : (y + 1) * b ^ X.length = y * b ^ X.length + b ^ X.length := by ring
        have : ¬ (x * b ^ X.length + digitsValue b X < y * b ^ X.length + digitsValue b Y) := by
          omega
        simp [lessThan, eqDigit, Nat.not_lt_of_gt hxy, Nat.ne_of_gt hxy, this]

/-- C1: for digit vectors `X`, `Y` of length `expansionLen` with digits in
`[0, encBase)`, `compare` yields 1 iff the integer `X` represents (most
significant digit first) is less than that of `Y`, and 0 otherwise, in
particular 0 for equal vectors (slot field of characteristic `p >= 2`). -/
theorem C1_compare_is_integer_less_than (p encBase expansionLen : Nat) (X Y : List Nat)
    (hp : 2 ≤ p) (hX : X.length = expansionLen) (hY : Y.length = expansionLen)
    (hXd : ∀ x ∈ X, x < encBase) (hYd : ∀ y ∈ Y, y < encBase) :
    compare p X Y = (if digitsValue encBase X < digitsValue encBase Y then 1 else 0) ∧
    (compare p X Y = 1 ↔ digitsValue encBase X < digitsValue encBase Y) ∧
    (X = Y → compare p X Y = 0) := by
  have hmain : compare p X Y =
      (if digitsValue encBase X < digitsValue encBase Y then 1 else 0) := by
    rw [compare_eq_mod, aggregate_eq_lt encBase X Y (hX.trans hY.symm) hXd hYd]
    split_ifs
    · exact Nat.mod_eq_of_lt (by omega)
    · exact Nat.mod_eq_of_lt (by omega)
  refine ⟨hmain, ?_, ?_⟩
  · rw [hmain]; split_ifs with h <;> simp [h]
  · intro h; subst h; rw [hmain]; simp

/-- C1 at `expansionLen = 3`, `encBase = 4` (slot characteristic 5):
`X = [2,1,0]`, `Y = [2,0,3]` gives 0 and `X = [1,3,3]`, `Y = [2,0,0]` gives 1. -/
theorem C1_compare_is_integer_less_than_witness :
    (compare 5 [2, 1, 0] [2, 0, 3] = 0 ∧ compare 5 [1, 3, 3] [2, 0, 0] = 1) ∧
    (compare 5 [1, 3, 3] [2, 0, 0] = 1 ↔ digitsValue 4 [1, 3, 3] < digitsValue 4 [2, 0, 0]) :=
  ⟨⟨by decide, by decide⟩,
    (C1_compare_is_integer_less_than 5 4 3 [1, 3, 3] [2, 0, 0] (by decide) rfl rfl
      (by decide) (by decide)).2.1⟩

/-! ## `mapTo01_subfield` and `is_zero` -/

theorem mapTo01_subfield_eq_pow {K : Type} [Field K] (p d : Nat) (a : K) (pow : Nat) :
    mapTo01_subfield p d a pow = (a ^ pow) ^ (p ^ d - 1) := by
  unfold mapTo01_subfield
  have hdvd : p - 1 ∣ p ^ d - 1 := by
    have := nat_sub_dvd_pow_sub_pow p 1 d
    simpa using this
  rw [← pow_mul, Nat.mul_div_cancel' hdvd]

/-- C2: on a slot field `K` with `p^d` elements (`d = 1` is the prime field), `mapTo01_subfield` sends every non-zero element to 1 and zero to
0, and `is_zero` yields 1 iff the element is 0 and 0 otherwise. -/
theorem C2_is_zero_indicator {K : Type} [Field K] [Fintype K] [DecidableEq K] (p d : Nat)
    (hcard : Fintype.card K = p ^ d) (a : K) (pow : Nat) (hpow : 0 < pow) :
    mapTo01_subfield p d a pow = (if a = 0 then 0 else 1) ∧
    is_zero p d a pow = (if a = 0 then 1 else 0) ∧
    (is_zero p d a pow = 1 ↔ a = 0) := by
  have hq : 1 < p ^ d := by rw [← hcard]; exact Fintype.one_lt_card
  have hmap : mapTo01_subfield p d a pow = (if a = 0 then 0 else 1) := by
    rw [mapTo01_subfield_eq_pow]
    split_ifs with ha
    · subst ha
      rw [zero_pow (by omega), zero_pow (by omega)]
    · have hne : a ^ pow ≠ 0 := pow_ne_zero _ ha
      have := FiniteField.pow_card_sub_one_eq_one (a ^ pow) hne
      rwa [hcard] at this
  have hz : is_zero p d a pow = (if a = 0 then 1 else 0) := by
    unfold is_zero
    rw [hmap]
    split_ifs <;> simp
  refine ⟨hmap, hz, ?_⟩
  rw [hz]
  split_ifs with ha <;> simp [ha]

/-- C2 on the prime field with 3 elements: `is_zero` of 0 is 1, of 2 is 0. -/
theorem C2_is_zero_indicator_witness :
    (is_zero 3 1 (0 : ZMod 3) 1 = 1 ↔ (0 : ZMod 3) = 0) ∧
    is_zero 3 1 (2 : ZMod 3) 1 = (if (2 : ZMod 3) = 0 then 1 else 0) ∧
    is_zero 3 1 (2 : ZMod 3) 1 = 0 :=
  ⟨(C2_is_zero_indicator 3 1 (by simp [ZMod.card]) (0 : ZMod 3) 1
      (by decide)).2.2,
    (C2_is_zero_indicator 3 1 (by simp [ZMod.card]) (2 : ZMod 3) 1
      (by decide)).2.1,
    by decide⟩

/-! ## Key-switching matrices of the comparison driver -/

theorem toULong_wrapLong (z : Int) : toULong (wrapLong z) = toULong z := by
  unfold wrapLong toLong toULong
  norm_num
  split_ifs with h <;> omega

/-- Beyond `2^63` the 64-bit counter `e` wraps to 0 before reaching
`expansion_len`: the doubling loop never ends. -/
theorem automLoop_diverges (Z : ZMStar) (ord : Int) (n : Nat) (hn : 2 ^ 63 < n) :
    ∀ (fuel : Nat) (e : Int) (S : Finset Int),
      (toULong e = 0 ∨ ∃ k, k ≤ 63 ∧ toULong e = 2 ^ k) →
        automLoop Z ord n fuel e S = none := by
  intro fuel
  induction fuel with
  | zero => intro e S _; rfl
  | succ fuel ih =>
    intro e S hinv
    have hdouble : toULong (wrapLong (e * 2)) = (toULong e * 2) % 2 ^ 64 := by
      rw [toULong_wrapLong]
      unfold toULong
      norm_num
      omega
    have hlt : toULong e < n := by
      rcases hinv with h | ⟨k, hk, h⟩
      · omega
      · have : 2 ^ k ≤ 2 ^ 63 := Nat.pow_le_pow_right (by decide) hk
        omega
    rw [automLoop, if_pos hlt]
    apply ih
    rw [hdouble]
    rcases hinv with h | ⟨k, hk, h⟩
    · left; rw [h]; rfl
    · rcases Nat.eq_or_lt_of_le hk with hk63 | hk63
      · left; rw [h, hk63]; rfl
      · right
        refine ⟨k + 1, by omega, ?_⟩
        have hle : 2 ^ (k + 1) ≤ 2 ^ 63 := Nat.pow_le_pow_right (by decide) (by omega)
        rw [h, ← pow_succ]
        exact Nat.mod_eq_of_lt (by omega)

/-- With `expansion_len > 2^63` (a negative `atol` result) and a single
generator, the comparison driver never gets past the doubling loop. -/
theorem keySwitchSetup_diverges (fuel : Nat) (Z : ZMStar) (type : CircuitType)
    (p d n : Nat) (htype : type ≠ .PSM) (hgen : Z.numOfGens = 1) (hn : 2 ^ 63 < n) :
    keySwitchSetup fuel Z type p d n = none := by
  unfold keySwitchSetup
  rw [if_neg htype, if_pos (by omega), if_pos hgen]
  simp only []
  rw [automLoop_diverges Z _ n hn fuel 1 _ (Or.inr ⟨0, by omega, by decide⟩)]

theorem psmRLoop_no_addTheseMatrices (Z : ZMStar) (g maxsize slots : Nat) :
    ∀ (fuel r : Nat) (acts acts1 : List KSAction),
      psmRLoop Z g maxsize slots fuel r acts = some acts1 →
      (∀ S, KSAction.addTheseMatrices S ∉ acts) → ∀ S, KSAction.addTheseMatrices S ∉ acts1 := by
  intro fuel
  induction fuel with
  | zero => intro r acts acts1 h; simp [psmRLoop] at h
  | succ fuel ih =>
    intro r acts acts1 h hacts
    rw [psmRLoop] at h
    split_ifs at h with hr
    · refine ih _ _ _ h ?_
      intro S
      split_ifs <;> simp [hacts S]
    · simp only [Option.some.injEq] at h
      subst h
      exact hacts

theorem psmGLoop_no_addTheseMatrices (Z : ZMStar) (maxsize slots fuelR : Nat) :
    ∀ (fuel g : Nat) (acts acts1 : List KSAction),
      psmGLoop Z maxsize slots fuelR fuel g acts = some acts1 →
      (∀ S, KSAction.addTheseMatrices S ∉ acts) → ∀ S, KSAction.addTheseMatrices S ∉ acts1 := by
  intro fuel
  induction fuel with
  | zero => intro g acts acts1 h; simp [psmGLoop] at h
  | succ fuel ih =>
    intro g acts acts1 h hacts
    rw [psmGLoop] at h
    split_ifs at h with hg
    · cases hr : psmRLoop Z g maxsize slots fuelR 1 acts with
      | none => rw [hr] at h; simp at h
      | some acts2 =>
        rw [hr] at h
        exact ih _ _ _ h (psmRLoop_no_addTheseMatrices Z g maxsize slots _ _ _ _ hr hacts)
    · simp only [Option.some.injEq] at h
      subst h
      exact hacts

/-- With circuit type PSM the comparison driver never calls
`addTheseMatrices`, whatever the slot structure and the expansion length. -/
theorem keySwitchSetup_psm_no_addTheseMatrices (fuel : Nat) (Z : ZMStar)
    (p d expansion_len : Nat) (acts : List KSAction)
    (h : keySwitchSetup fuel Z .PSM p d expansion_len = some acts) :
    ∀ S, KSAction.addTheseMatrices S ∉ acts := by
  unfold keySwitchSetup at h
  rw [if_pos rfl] at h
  simp only [] at h
  split at h
  · simp at h
  · rename_i acts0 hloop
    simp only [Option.some.injEq] at h
    subst h
    intro S
    have := psmGLoop_no_addTheseMatrices Z _ _ _ _ _ _ _ hloop (by simp) S
    simp [this]

theorem keySwitchSetup_psm_no_addTheseMatrices_witness :
    ∀ S, KSAction.addTheseMatrices S ∉ [KSAction.setKeySwitchMap] :=
  keySwitchSetup_psm_no_addTheseMatrices 64 zm13 3 1 2 [.setKeySwitchMap] (by decide)

end CmpCircuit
